import Mathlib

/- Verification of the sss substring-search library (src/main.rs).

   Shallow embedding conventions:
   - Rust strings are decoded once to character sequences by each function;
     we model a decoded pattern or text directly as a Lean `List Char`.
   - Rust `u64` and `u32` arithmetic is modelled as `Nat` with explicit
     `% 2 ^ 64` and `% 2 ^ 32` at the operations the source performs on those
     machine types (release-mode wrapping semantics).
   - Fallible operations return `Option`: an out-of-bounds index, an invalid
     cast target, or an exhausted loop-fuel counter yields `none`.  The
     totality theorems below prove `none` is never produced, which is the
     formal counterpart of "the scan loops terminate and never index out of
     bounds".  Fuel bounds are fixed from the input lengths at the call sites.
-/

def U64 : Nat := 2 ^ 64
def U32 : Nat := 2 ^ 32

namespace naive

/- src/main.rs lines 88-99: character-by-character comparison of the pattern
   against the front of the text, stopping at the first mismatch or when the
   text runs out. -/
def contains_inner : List Char → List Char → Bool
  | [], _ => true
  | _ :: _, [] => false
  | p :: ps, t :: ts => p == t && contains_inner ps ts

/- src/main.rs lines 67-86. -/
def contains (pattern text : List Char) : Option Bool :=
  if pattern.isEmpty then some true
  else if text.isEmpty ∨ text.length < pattern.length then some false
  else some ((List.range text.length).any fun i => contains_inner pattern (text.drop i))

end naive

namespace rabin_karp

def MULTIPLIER : Nat := 10
def MODULO : Nat := 256

structure RollingHasher where
  hash : Nat
  window : Nat

/- src/main.rs lines 166-171: the for-loop body of RollingHasher::new.
   `i` is the `enumerate` index; the exponent is cast `as u32` by the source
   (`MULTIPLIER.pow(power as u32)`), hence the `% U32`; the u64 product and
   sum wrap, hence the `% U64`. -/
def newLoop (window : Nat) : Nat → List Char → Nat → Nat
  | _, [], h => h
  | i, ch :: rest, h =>
      newLoop window (i + 1) rest
        ((h + ch.toNat * (MULTIPLIER ^ ((window - i - 1) % U32) % U64) % U64) % U64)

/- src/main.rs lines 163-175. -/
def RollingHasher.new (init : List Char) : RollingHasher :=
  { hash := newLoop init.length 0 init 0 % MODULO, window := init.length }

/- src/main.rs lines 177-186.  `(self.window - 1)` is usize subtraction
   (wrapping at 2^64) followed by an `as u32` truncation. -/
def RollingHasher.roll (self : RollingHasher) (in_ch out_ch : Char) : RollingHasher :=
  let power := (self.window + U64 - 1) % U64 % U32
  let previous := out_ch.toNat * (MULTIPLIER ^ power % U64) % U64 % MODULO
  let h1 := (self.hash + MODULO - previous) % MODULO
  let h2 := h1 * MULTIPLIER % U64
  let h3 := (h2 + in_ch.toNat) % U64
  { hash := h3 % MODULO, window := self.window }

/- src/main.rs lines 205-216 (identical to naive::contains_inner). -/
def contains_inner : List Char → List Char → Bool
  | [], _ => true
  | _ :: _, [] => false
  | p :: ps, t :: ts => p == t && contains_inner ps ts

/- src/main.rs lines 130-149: the scan loop of rabin_karp::contains, iterating
   over the list of starting indices 0, 1, ..., text.len()-1. -/
def rkLoop (pattern text : List Char) (pattern_hash : Nat) :
    RollingHasher → List Nat → Option Bool
  | _, [] => some false
  | h, i :: rest =>
    if text.length - i < pattern.length then rkLoop pattern text pattern_hash h rest
    else
      match (if 0 < i then
               match text.get? (i + pattern.length - 1), text.get? (i - 1) with
               | some in_ch, some out_ch => some (h.roll in_ch out_ch)
               | _, _ => none
             else some h) with
      | none => none
      | some h' =>
        if h'.hash = pattern_hash then
          if contains_inner pattern (text.drop i) then some true
          else rkLoop pattern text pattern_hash h' rest
        else rkLoop pattern text pattern_hash h' rest

/- src/main.rs lines 116-152. -/
def contains (pattern text : List Char) : Option Bool :=
  if pattern.isEmpty then some true
  else if text.isEmpty ∨ text.length < pattern.length then some false
  else
    rkLoop pattern text (RollingHasher.new pattern).hash
      (RollingHasher.new (text.take pattern.length)) (List.range text.length)

/- Exact-value (non-wrapping) rendition of the arithmetic done by
   RollingHasher::new: it returns `none` as soon as an intermediate u64 value
   (the power, the product, or the running sum) fails to fit in a u64 — the
   condition under which the source's debug-mode overflow checks panic. -/
def newLoopExact (window : Nat) : Nat → List Char → Nat → Option Nat
  | _, [], h => some h
  | i, ch :: rest, h =>
    let pw := MULTIPLIER ^ ((window - i - 1) % U32)
    if pw < U64 then
      let next := ch.toNat * pw
      if next < U64 then
        if h + next < U64 then newLoopExact window (i + 1) rest (h + next) else none
      else none
    else none

end rabin_karp

namespace boyer_moore

/- src/main.rs line 289: `table.insert(pattern[i], pattern.len() - i - 1)`,
   as the update it performs on the lookup function of the map. -/
def bctStep (pattern : List Char) (tbl : Char → Option Nat) (i : Nat) : Char → Option Nat :=
  fun c => if pattern.getD i default == c then some (pattern.length - i - 1) else tbl c

/- src/main.rs lines 286-292: the HashMap is modelled as the lookup function
   it computes; insertion for key pattern[i] overrides the previous binding. -/
def bad_character_table (pattern : List Char) : Char → Option Nat :=
  (List.range' 1 (pattern.length - 1)).foldl (bctStep pattern) (fun _ => none)

/- The condition under which src/main.rs lines 308-309 record a full-suffix
   occurrence at `pos`: the slice remainder[pos..pos+suffix_len] equals the
   suffix, and pos is at the start or not preceded by the mismatch character. -/
def qualAt (pattern : List Char) (suffix_len pos : Nat) : Bool :=
  let remainder := pattern.take (pattern.length - 1)
  ((remainder.drop pos).take suffix_len == pattern.drop (pattern.length - suffix_len))
    && (pos == 0
        || !(remainder.getD (pos - 1) default
              == pattern.getD (pattern.length - suffix_len - 1) default))

/- src/main.rs lines 302-314: the iteration over `pos` in
   0..remainder.len()-suffix_len+1 writes `pattern.len() - pos` into the entry
   for every qualifying position (later positions override the earlier ones)
   and raises found_full_suffix; the pair is (entry, found_full_suffix) with
   initial entry pattern.len() as pushed at line 302. -/
def gstFold (pattern : List Char) (suffix_len : Nat) : Nat × Bool :=
  (List.range ((pattern.take (pattern.length - 1)).length - suffix_len + 1)).foldl
    (fun (acc : Nat × Bool) pos =>
      if qualAt pattern suffix_len pos then (pattern.length - pos, true) else acc)
    (pattern.length, false)

/- src/main.rs lines 297-329: the table entry pushed for a given suffix_len
   of 1..pattern.len()-1.  If no position qualified, the reversed search for
   the longest proper prefix that is also a suffix of the suffix runs (first
   hit breaks, lines 321-328); otherwise the entry stays as the fold left it. -/
def gstEntry (pattern : List Char) (suffix_len : Nat) : Nat :=
  if (gstFold pattern suffix_len).2 then (gstFold pattern suffix_len).1
  else
    match (List.range' 1 (suffix_len - 1)).reverse.find?
        (fun par => pattern.take par == pattern.drop (pattern.length - par)) with
    | some par => pattern.length - par + suffix_len
    | none => (gstFold pattern suffix_len).1

/- src/main.rs lines 294-332: entry 0 is 1, entry k (k = 1..len-1) is gstEntry. -/
def good_suffix_table (pattern : List Char) : List Nat :=
  1 :: (List.range' 1 (pattern.length - 1)).map (gstEntry pattern)

/- src/main.rs lines 268-272: the inner right-to-left comparison loop
   `while j != 0 && text[i] == pattern[j] { i -= 1; j -= 1; }`, returning the
   final cursor pair.  `none` models an out-of-bounds read or the usize
   underflow of `i -= 1` at i = 0. -/
def bmInner (pattern text : List Char) : Nat → Nat → Option (Nat × Nat)
  | i, 0 => some (i, 0)
  | i, j + 1 =>
    match text.get? i, pattern.get? (j + 1) with
    | some tc, some pc =>
      if tc = pc then
        if i = 0 then none else bmInner pattern text (i - 1) j
      else some (i, j + 1)
    | _, _ => none

/- src/main.rs lines 267-283: the outer scan loop, with fuel. -/
def bmLoop (pattern text : List Char) (bct : Char → Option Nat) (gst : List Nat) :
    Nat → Nat → Option Bool
  | 0, _ => none
  | fuel + 1, i =>
    if i < text.length then
      match bmInner pattern text i (pattern.length - 1) with
      | none => none
      | some (i', j) =>
        if j = 0 then some true
        else
          match text.get? i', gst.get? (pattern.length - j - 1) with
          | some tc, some gs =>
            bmLoop pattern text bct gst fuel (i' + max ((bct tc).getD pattern.length) gs)
          | _, _ => none
    else some false

/- src/main.rs lines 250-284. -/
def contains (pattern text : List Char) : Option Bool :=
  if pattern.isEmpty then some true
  else if text.isEmpty ∨ text.length < pattern.length then some false
  else
    bmLoop pattern text (bad_character_table pattern) (good_suffix_table pattern)
      (text.length + 1) (pattern.length - 1)

end boyer_moore

namespace knuth_morris_pratt

/- src/main.rs lines 407-409: the fallback loop
   `while cnd >= 0 && pattern[i] != pattern[cnd as usize] { cnd = table[cnd as usize]; }`
   with fuel; `none` models an out-of-bounds read or exhausted fuel. -/
def pmtInner (pattern : List Char) (i : Nat) (table : List Int) :
    Nat → Int → Option Int
  | 0, _ => none
  | fuel + 1, cnd =>
    if 0 ≤ cnd then
      match pattern.get? i, pattern.get? cnd.toNat with
      | some ci, some cc =>
        if ci = cc then some cnd
        else
          match table.get? cnd.toNat with
          | some v => pmtInner pattern i table fuel v
          | none => none
      | _, _ => none
    else some cnd

/- src/main.rs lines 402-412: the construction loop over i = 1..pattern.len().
   A negative `cnd` at the loop head would be cast `as usize` into a huge
   index, so it is modelled as an out-of-bounds `none`. -/
def pmtLoop (pattern : List Char) : List Nat → List Int → Int → Option (List Int)
  | [], table, _ => some table
  | i :: rest, table, cnd =>
    if 0 ≤ cnd then
      match pattern.get? i, pattern.get? cnd.toNat with
      | some ci, some cc =>
        if ci = cc then
          match table.get? cnd.toNat with
          | some v => pmtLoop pattern rest (table ++ [v]) (cnd + 1)
          | none => none
        else
          match pmtInner pattern i (table ++ [cnd]) (pattern.length + 2) cnd with
          | some cnd' => pmtLoop pattern rest (table ++ [cnd]) (cnd' + 1)
          | none => none
      | _, _ => none
    else none

/- src/main.rs lines 399-414. -/
def partial_match_table (pattern : List Char) : Option (List Int) :=
  pmtLoop pattern (List.range' 1 (pattern.length - 1)) [-1] 0

/- src/main.rs lines 377-394: the scan loop with fuel.  `(k + 1) as usize`
   is the Int-to-usize cast, modelled as reduction mod 2^64. -/
def kmpLoop (pattern text : List Char) (table : List Int) :
    Nat → Nat → Nat → Option Bool
  | 0, _, _ => none
  | fuel + 1, i, j =>
    if i < text.length then
      match text.get? i, pattern.get? j with
      | some tc, some pc =>
        if tc = pc then
          if j + 1 = pattern.length then some true
          else kmpLoop pattern text table fuel (i + 1) (j + 1)
        else
          match table.get? j with
          | some k =>
            if k < 0 then
              kmpLoop pattern text table fuel (i + 1) (((k + 1) % (2 ^ 64 : Int)).toNat)
            else kmpLoop pattern text table fuel i k.toNat
          | none => none
      | _, _ => none
    else some false

/- src/main.rs lines 361-397. -/
def contains (pattern text : List Char) : Option Bool :=
  if pattern.isEmpty then some true
  else if text.isEmpty ∨ text.length < pattern.length then some false
  else
    match partial_match_table pattern with
    | none => none
    | some table => kmpLoop pattern text table (2 * text.length + 2) 0 0

end knuth_morris_pratt

/- Spec-side definitions (written from the specification's words, for the
   refinement-style table claims) and proof auxiliaries. -/

namespace boyer_moore

/- The bad-character mapping computed by the source, in closed form: the
   rightmost position i in 1..pattern.len()-1 (scanning the insertion order in
   reverse) whose character is c, sent to its distance pattern.len()-i-1 from
   the last index.  Position 0 is never inserted. -/
def amendedBadCharSpec (pattern : List Char) (c : Char) : Option Nat :=
  ((List.range' 1 (pattern.length - 1)).reverse.find?
      (fun i => pattern.getD i default == c)).map
    (fun i => pattern.length - i - 1)

/- The bad-character mapping as the specification's prose describes it: the
   rightmost position i among all pattern positions except the last
   (0..pattern.len()-2) whose character is c, sent to its distance
   pattern.len()-i-1 from the last index. -/
def claimedBadCharSpec (pattern : List Char) (c : Char) : Option Nat :=
  ((List.range' 0 (pattern.length - 1)).reverse.find?
      (fun i => pattern.getD i default == c)).map
    (fun i => pattern.length - i - 1)

/- Bool rendition of "no position holds a qualifying repetition of the full
   suffix" (the fold of gstEntry records nothing). -/
def noQualFull (pattern : List Char) (suffix_len : Nat) : Bool :=
  (List.range ((pattern.take (pattern.length - 1)).length - suffix_len + 1)).all
    (fun pos => !qualAt pattern suffix_len pos)

/- Bool rendition of "no proper prefix of the pattern equals a suffix of the
   matched suffix" (the reversed search of gstEntry finds nothing). -/
def noBorder (pattern : List Char) (suffix_len : Nat) : Bool :=
  (List.range' 1 (suffix_len - 1)).all
    (fun par => !(pattern.take par == pattern.drop (pattern.length - par)))

end boyer_moore

namespace knuth_morris_pratt

/- The invariant of the partial-match table: every entry is at least -1 and
   strictly below its own index (so entry 0 is forced to be -1). -/
def TableGood (table : List Int) : Prop :=
  ∀ m v, table.get? m = some v → -1 ≤ v ∧ v < (m : Int)

end knuth_morris_pratt

namespace rabin_karp

/- The exact polynomial value of a window: the sum of character code points
   weighted by MULTIPLIER to the power of the distance from the window end.
   This is the mathematically intended value of the hash before reduction. -/
def polyVal : List Char → Nat
  | [] => 0
  | c :: cs => c.toNat * MULTIPLIER ^ cs.length + polyVal cs

/- The exact sum accumulated by newLoop from enumerate index i on (each term
   keeps the source's u32 exponent truncation but drops the u64 wrapping). -/
def sumTerms (window : Nat) : Nat → List Char → Nat
  | _, [] => 0
  | i, c :: cs =>
    c.toNat * MULTIPLIER ^ ((window - i - 1) % U32) + sumTerms window (i + 1) cs

end rabin_karp

/- Embedding validation against the repository's own unit tests. -/

theorem bad_character_table_test_vector :
    boyer_moore.bad_character_table "abac".toList 'a' = some 1
      ∧ boyer_moore.bad_character_table "abac".toList 'b' = some 2
      ∧ boyer_moore.bad_character_table "abac".toList 'c' = some 0
      ∧ boyer_moore.bad_character_table "abac".toList 'd' = none := by
  decide

theorem good_suffix_table_test_vector :
    boyer_moore.good_suffix_table "bcacbcbc".toList = [1, 5, 8, 5, 10, 11, 12, 13] := by
  decide

theorem partial_match_table_test_vector :
    knuth_morris_pratt.partial_match_table "abcdabd".toList
      = some [-1, 0, 0, 0, -1, 0, 2] := by
  decide

theorem rolled_hash_test_vector :
    ((rabin_karp.RollingHasher.new "abc".toList).roll 'a' 'a').hash
      = (rabin_karp.RollingHasher.new "bca".toList).hash := by
  decide

/- Generic helper lemmas. -/

theorem bctStep_foldl (pattern : List Char) (idxs : List Nat)
    (tbl : Char → Option Nat) (c : Char) :
    (idxs.foldl (boyer_moore.bctStep pattern) tbl) c
      = match idxs.reverse.find? (fun i => pattern.getD i default == c) with
        | some i => some (pattern.length - i - 1)
        | none => tbl c := by
  induction idxs generalizing tbl with
  | nil => rfl
  | cons i rest ih =>
    rw [List.foldl_cons, ih, List.reverse_cons, List.find?_append]
    cases hr : List.find? (fun i => pattern.getD i default == c) rest.reverse with
    | some j => simp [Option.or]
    | none =>
      show (boyer_moore.bctStep pattern tbl i) c = _
      rw [boyer_moore.bctStep]
      simp only [List.find?_cons]
      cases hpi : (pattern.getD i default == c) with
      | true => simp [hpi]
      | false => simp [hpi]

/-- C5 (amended): the Boyer-Moore bad-character table maps exactly the
characters occurring at pattern positions other than the first (positions
1..len-1, the last position included), each to the distance len-i-1 from the
pattern's end of that character's rightmost such occurrence; the character at
position 0 contributes no entry of its own. -/
theorem bad_character_table_characterization (pattern : List Char) (c : Char) :
    boyer_moore.bad_character_table pattern c
      = boyer_moore.amendedBadCharSpec pattern c := by
  rw [boyer_moore.bad_character_table, bctStep_foldl, boyer_moore.amendedBadCharSpec]
  cases List.find? (fun i => pattern.getD i default == c)
      (List.range' 1 (pattern.length - 1)).reverse with
  | some j => rfl
  | none => rfl

/-- C5 (counterexample): on the pattern "ab" the claim's table (built from all
positions but the last) would contain the character at position 0 with
distance 1 and nothing for position 1, while the code's table contains
exactly the opposite: 'a' is absent and 'b' (the last position) maps to 0. -/
theorem bad_character_table_claim_refuted :
    boyer_moore.bad_character_table ['a', 'b'] 'a' = none
      ∧ boyer_moore.claimedBadCharSpec ['a', 'b'] 'a' = some 1
      ∧ boyer_moore.bad_character_table ['a', 'b'] 'b' = some 0
      ∧ boyer_moore.claimedBadCharSpec ['a', 'b'] 'b' = none := by
  decide

/-- C1: the four algorithms are claimed to agree on every input; they do not.
At pattern "a", text "b" the first three return false but boyer_moore returns
true (its scan returns true as soon as the cursor reaches pattern position 0,
without comparing pattern[0]). -/
theorem oracle_divergence :
    naive.contains ['a'] ['b'] = some false
      ∧ rabin_karp.contains ['a'] ['b'] = some false
      ∧ knuth_morris_pratt.contains ['a'] ['b'] = some false
      ∧ boyer_moore.contains ['a'] ['b'] = some true := by
  decide

/-- C2: boyer_moore::contains is claimed to return true only on a full match
(including position 0); at pattern "a", text "b" it returns true although the
pattern does not occur in the text. -/
theorem bm_true_without_occurrence :
    boyer_moore.contains ['a'] ['b'] = some true ∧ ¬ ['a'] <:+: ['b'] := by
  refine ⟨by decide, ?_⟩
  intro h
  have := h.subset (a := 'a') (by decide)
  simp at this

/-- C8 (counterexample): the u64 power and sum computations in
RollingHasher::new are not within u64 bounds for patterns of every length:
on any pattern of length 21 (here 21 repetitions of 'a') the very first
iteration computes MULTIPLIER.pow(20) = 10^20 > 2^64 - 1, so the exact-value
rendition of the loop signals overflow. -/
theorem rolling_hasher_new_not_in_bounds :
    rabin_karp.newLoopExact 21 0 (List.replicate 21 'a') 0 = none
      ∧ ¬ rabin_karp.MULTIPLIER ^ 20 < U64 := by
  decide

/-- C9: for every pattern of length exactly 1 and every text of length at
least 1, boyer_moore::contains returns true — even when the pattern's
character occurs nowhere in the text — because the scan's inner loop starts
at j = 0 and the scan returns true whenever j = 0. -/
theorem bm_single_char_always_true (p t : List Char)
    (h1 : p.length = 1) (h2 : 1 ≤ t.length) :
    boyer_moore.contains p t = some true := by
  have hpe : ¬ p.isEmpty = true := by
    rw [List.isEmpty_iff]
    intro h
    subst h
    simp at h1
  have hg : ¬ (t.isEmpty = true ∨ t.length < p.length) := by
    rintro (h | h)
    · rw [List.isEmpty_iff] at h
      subst h
      simp at h2
    · omega
  rw [boyer_moore.contains, if_neg hpe, if_neg hg, h1]
  norm_num
  rw [boyer_moore.bmLoop]
  rw [if_pos (by omega : 0 < t.length)]
  simp only [h1]
  norm_num
  rw [show boyer_moore.bmInner p t 0 0 = some (0, 0) from rfl]
  rfl

theorem bm_single_char_always_true_witness :
    boyer_moore.contains ['q'] ['z'] = some true :=
  bm_single_char_always_true ['q'] ['z'] (by decide) (by decide)

/-- C4: for each of the four algorithms, contains returns true whenever the
pattern is empty (for every text), and returns false whenever the pattern is
non-empty and the text is empty or shorter than the pattern. -/
theorem empty_and_short_input_behavior (p t : List Char) :
    (p = [] →
      naive.contains p t = some true ∧ rabin_karp.contains p t = some true
        ∧ boyer_moore.contains p t = some true
        ∧ knuth_morris_pratt.contains p t = some true)
    ∧ (p ≠ [] → t.length < p.length →
      naive.contains p t = some false ∧ rabin_karp.contains p t = some false
        ∧ boyer_moore.contains p t = some false
        ∧ knuth_morris_pratt.contains p t = some false) := by
  constructor
  · rintro rfl
    refine ⟨?_, ?_, ?_, ?_⟩
    · simp [naive.contains]
    · simp [rabin_karp.contains]
    · simp [boyer_moore.contains]
    · simp [knuth_morris_pratt.contains]
  · intro hne hlt
    have hpe : ¬ p.isEmpty = true := by rw [List.isEmpty_iff]; exact hne
    have hg : t.isEmpty = true ∨ t.length < p.length := Or.inr hlt
    refine ⟨?_, ?_, ?_, ?_⟩
    · rw [naive.contains, if_neg hpe, if_pos hg]
    · rw [rabin_karp.contains, if_neg hpe, if_pos hg]
    · rw [boyer_moore.contains, if_neg hpe, if_pos hg]
    · rw [knuth_morris_pratt.contains, if_neg hpe, if_pos hg]

theorem empty_and_short_input_behavior_witness :
    naive.contains [] ['a'] = some true
      ∧ knuth_morris_pratt.contains ['a', 'b'] ['c'] = some false :=
  ⟨((empty_and_short_input_behavior [] ['a']).1 rfl).1,
   ((empty_and_short_input_behavior ['a', 'b'] ['c']).2 (by decide) (by decide)).2.2.2⟩

/- Self-match lemmas, one per algorithm. -/

theorem naive_contains_inner_refl (l : List Char) : naive.contains_inner l l = true := by
  induction l with
  | nil => rfl
  | cons c cs ih => simp [naive.contains_inner, ih]

theorem rk_contains_inner_refl (l : List Char) :
    rabin_karp.contains_inner l l = true := by
  induction l with
  | nil => rfl
  | cons c cs ih => simp [rabin_karp.contains_inner, ih]

theorem naive_self (p : List Char) (h : p ≠ []) : naive.contains p p = some true := by
  have hpe : ¬ p.isEmpty = true := by rw [List.isEmpty_iff]; exact h
  have hg : ¬ (p.isEmpty = true ∨ p.length < p.length) := by
    rintro (hh | hh)
    · exact hpe hh
    · omega
  rw [naive.contains, if_neg hpe, if_neg hg]
  congr 1
  rw [List.any_eq_true]
  refine ⟨0, ?_, ?_⟩
  · rw [List.mem_range]
    exact List.length_pos.mpr h
  · rw [List.drop_zero]
    exact naive_contains_inner_refl p

theorem rk_self (p : List Char) (h : p ≠ []) : rabin_karp.contains p p = some true := by
  have hpe : ¬ p.isEmpty = true := by rw [List.isEmpty_iff]; exact h
  have hg : ¬ (p.isEmpty = true ∨ p.length < p.length) := by
    rintro (hh | hh)
    · exact hpe hh
    · omega
  rw [rabin_karp.contains, if_neg hpe, if_neg hg, List.take_length]
  obtain ⟨m, hm⟩ : ∃ m, p.length = m + 1 :=
    ⟨p.length - 1, by have := List.length_pos.mpr h; omega⟩
  rw [hm, List.range_succ_eq_map]
  rw [rabin_karp.rkLoop]
  rw [if_neg (by omega : ¬ p.length - 0 < p.length)]
  rw [if_neg (by omega : ¬ 0 < 0)]
  simp [List.drop_zero, rk_contains_inner_refl]

/- KMP partial-match table: invariants and totality. -/

theorem tableGood_singleton : knuth_morris_pratt.TableGood [-1] := by
  intro m v hm
  cases m with
  | zero =>
    injection hm with h
    subst h
    exact ⟨le_refl _, by norm_num⟩
  | succ m => exact absurd hm (by simp)

theorem tableGood_append (table : List Int) (x : Int)
    (hg : knuth_morris_pratt.TableGood table) (h1 : -1 ≤ x)
    (h2 : x < (table.length : Int)) :
    knuth_morris_pratt.TableGood (table ++ [x]) := by
  intro m v hm
  rcases Nat.lt_trichotomy m table.length with hlt | heq | hgt
  · rw [List.get?_append hlt] at hm
    have := hg m v hm
    exact ⟨this.1, this.2⟩
  · subst heq
    rw [List.get?_concat_length] at hm
    injection hm with h
    subst h
    exact ⟨h1, h2⟩
  · have hlen : (table ++ [x]).length ≤ m := by
      simp only [List.length_append, List.length_singleton]
      omega
    rw [List.get?_len_le hlen] at hm
    cases hm

theorem pmtInner_spec (pattern : List Char) (i : Nat) (table : List Int) :
    ∀ (fuel : Nat) (cnd : Int), i < pattern.length →
      knuth_morris_pratt.TableGood table →
      -1 ≤ cnd → cnd < (table.length : Int) → cnd < (pattern.length : Int) →
      cnd + 1 < (fuel : Int) →
      ∃ cnd', knuth_morris_pratt.pmtInner pattern i table fuel cnd = some cnd'
        ∧ -1 ≤ cnd' ∧ cnd' ≤ cnd := by
  intro fuel
  induction fuel with
  | zero =>
    intro cnd _ _ h1 _ _ hf
    exact absurd hf (by omega)
  | succ fuel ih =>
    intro cnd hi hg h1 h2 h3 hf
    rw [knuth_morris_pratt.pmtInner]
    by_cases hc : (0 : Int) ≤ cnd
    · rw [if_pos hc]
      obtain ⟨ci, hci⟩ : ∃ ci, pattern.get? i = some ci := ⟨_, List.get?_eq_get hi⟩
      obtain ⟨cc, hcc⟩ : ∃ cc, pattern.get? cnd.toNat = some cc :=
        ⟨_, List.get?_eq_get (by omega)⟩
      simp only [hci, hcc]
      by_cases he : ci = cc
      · rw [if_pos he]
        exact ⟨cnd, rfl, h1, le_refl _⟩
      · rw [if_neg he]
        obtain ⟨v, hv⟩ : ∃ v, table.get? cnd.toNat = some v :=
          ⟨_, List.get?_eq_get (by omega)⟩
        simp only [hv]
        have hvb := hg cnd.toNat v hv
        obtain ⟨cnd', hrec, hb1, hb2⟩ :=
          ih v hi hg (by omega) (by omega) (by omega) (by omega)
        exact ⟨cnd', hrec, hb1, by omega⟩
    · rw [if_neg hc]
      exact ⟨cnd, rfl, h1, le_refl _⟩

theorem pmtLoop_spec (pattern : List Char) :
    ∀ (cnt s : Nat) (table : List Int) (cnd : Int),
      table.length = s → s + cnt ≤ pattern.length →
      knuth_morris_pratt.TableGood table → 0 ≤ cnd → cnd < (s : Int) →
      ∃ tbl, knuth_morris_pratt.pmtLoop pattern (List.range' s cnt) table cnd = some tbl
        ∧ tbl.length = s + cnt ∧ knuth_morris_pratt.TableGood tbl := by
  intro cnt
  induction cnt with
  | zero =>
    intro s table cnd hlen hle hg hc1 hc2
    exact ⟨table, rfl, by omega, hg⟩
  | succ cnt ih =>
    intro s table cnd hlen hle hg hc1 hc2
    rw [List.range'_succ]
    rw [knuth_morris_pratt.pmtLoop]
    rw [if_pos hc1]
    have hs : s < pattern.length := by omega
    obtain ⟨ci, hci⟩ : ∃ ci, pattern.get? s = some ci := ⟨_, List.get?_eq_get hs⟩
    obtain ⟨cc, hcc⟩ : ∃ cc, pattern.get? cnd.toNat = some cc :=
      ⟨_, List.get?_eq_get (by omega)⟩
    simp only [hci, hcc]
    by_cases he : ci = cc
    · rw [if_pos he]
      obtain ⟨v, hv⟩ : ∃ v, table.get? cnd.toNat = some v :=
        ⟨_, List.get?_eq_get (by omega)⟩
      simp only [hv]
      have hvb := hg cnd.toNat v hv
      have hg' : knuth_morris_pratt.TableGood (table ++ [v]) :=
        tableGood_append table v hg (by omega) (by omega)
      obtain ⟨tbl, ht1, ht2, ht3⟩ :=
        ih (s + 1) (table ++ [v]) (cnd + 1)
          (by simp [hlen]) (by omega) hg' (by omega) (by omega)
      exact ⟨tbl, ht1, by omega, ht3⟩
    · rw [if_neg he]
      have hg' : knuth_morris_pratt.TableGood (table ++ [cnd]) :=
        tableGood_append table cnd hg (by omega) (by omega)
      obtain ⟨cnd', hrec, hb1, hb2⟩ :=
        pmtInner_spec pattern s (table ++ [cnd]) (pattern.length + 2) cnd hs hg'
          (by omega) (by simp [hlen]; omega) (by omega) (by omega)
      simp only [hrec]
      obtain ⟨tbl, ht1, ht2, ht3⟩ :=
        ih (s + 1) (table ++ [cnd]) (cnd' + 1)
          (by simp [hlen]) (by omega) hg' (by omega) (by omega)
      exact ⟨tbl, ht1, by omega, ht3⟩

theorem partial_match_table_spec (p : List Char) (h : p ≠ []) :
    ∃ tbl, knuth_morris_pratt.partial_match_table p = some tbl
      ∧ tbl.length = p.length ∧ knuth_morris_pratt.TableGood tbl := by
  have hlen : 0 < p.length := List.length_pos.mpr h
  obtain ⟨tbl, h1, h2, h3⟩ :=
    pmtLoop_spec p (p.length - 1) 1 [-1] 0 rfl (by omega) tableGood_singleton
      (by norm_num) (by norm_num)
  exact ⟨tbl, h1, by omega, h3⟩

theorem kmpLoop_total (pattern text : List Char) (table : List Int)
    (hlen : table.length = pattern.length)
    (hg : knuth_morris_pratt.TableGood table) :
    ∀ (fuel i j : Nat), j < pattern.length →
      2 * (text.length - i) + j + 2 ≤ fuel →
      (knuth_morris_pratt.kmpLoop pattern text table fuel i j).isSome := by
  intro fuel
  induction fuel with
  | zero =>
    intro i j hj hf
    exact absurd hf (by omega)
  | succ fuel ih =>
    intro i j hj hf
    rw [knuth_morris_pratt.kmpLoop]
    by_cases hit : i < text.length
    · rw [if_pos hit]
      obtain ⟨tc, htc⟩ : ∃ tc, text.get? i = some tc := ⟨_, List.get?_eq_get hit⟩
      obtain ⟨pc, hpc⟩ : ∃ pc, pattern.get? j = some pc := ⟨_, List.get?_eq_get hj⟩
      simp only [htc, hpc]
      by_cases he : tc = pc
      · rw [if_pos he]
        by_cases hj1 : j + 1 = pattern.length
        · rw [if_pos hj1]
          rfl
        · rw [if_neg hj1]
          exact ih (i + 1) (j + 1) (by omega) (by omega)
      · rw [if_neg he]
        obtain ⟨k, hk⟩ : ∃ k, table.get? j = some k :=
          ⟨_, List.get?_eq_get (by omega)⟩
        simp only [hk]
        have hkb := hg j k hk
        by_cases hneg : k < 0
        · rw [if_pos hneg]
          have hk1 : k = -1 := by omega
          subst hk1
          rw [show (((-1 : Int) + 1) % (2 ^ 64 : Int)).toNat = 0 from by norm_num]
          exact ih (i + 1) 0 (by omega) (by omega)
        · rw [if_neg hneg]
          exact ih i k.toNat (by omega) (by omega)
    · rw [if_neg hit]
      rfl

theorem kmp_contains_isSome (p t : List Char) :
    (knuth_morris_pratt.contains p t).isSome := by
  rw [knuth_morris_pratt.contains]
  by_cases hpe : p.isEmpty = true
  · rw [if_pos hpe]
    rfl
  · rw [if_neg hpe]
    by_cases hgd : t.isEmpty = true ∨ t.length < p.length
    · rw [if_pos hgd]
      rfl
    · rw [if_neg hgd]
      have hne : p ≠ [] := fun hh => hpe (List.isEmpty_iff.mpr hh)
      obtain ⟨tbl, h1, h2, h3⟩ := partial_match_table_spec p hne
      rw [h1]
      exact kmpLoop_total p t tbl h2 h3 (2 * t.length + 2) 0 0
        (List.length_pos.mpr hne) (by omega)

theorem kmpLoop_diag (p : List Char) (tbl : List Int) :
    ∀ (fuel j : Nat), j < p.length → p.length - j < fuel →
      knuth_morris_pratt.kmpLoop p p tbl fuel j j = some true := by
  intro fuel
  induction fuel with
  | zero =>
    intro j hj hf
    exact absurd hf (by omega)
  | succ fuel ih =>
    intro j hj hf
    rw [knuth_morris_pratt.kmpLoop, if_pos hj]
    obtain ⟨c, hc⟩ : ∃ c, p.get? j = some c := ⟨_, List.get?_eq_get hj⟩
    simp only [hc, if_true]
    by_cases hj1 : j + 1 = p.length
    · rw [if_pos hj1]
    · rw [if_neg hj1]
      exact ih (j + 1) (by omega) (by omega)

theorem kmp_self (p : List Char) (h : p ≠ []) :
    knuth_morris_pratt.contains p p = some true := by
  have hpe : ¬ p.isEmpty = true := fun hh => h (List.isEmpty_iff.mp hh)
  have hg : ¬ (p.isEmpty = true ∨ p.length < p.length) := by
    rintro (hh | hh)
    · exact hpe hh
    · omega
  rw [knuth_morris_pratt.contains, if_neg hpe, if_neg hg]
  obtain ⟨tbl, h1, _, _⟩ := partial_match_table_spec p h
  rw [h1]
  exact kmpLoop_diag p tbl (2 * p.length + 2) 0 (List.length_pos.mpr h)
    (by omega)

/- Boyer-Moore: inner-loop behaviour, table bounds, scan totality. -/

theorem bmInner_spec (pattern text : List Char) :
    ∀ (j i : Nat), j ≤ i → i < text.length → j < pattern.length →
      ∃ i' j', boyer_moore.bmInner pattern text i j = some (i', j')
        ∧ j' ≤ j ∧ i' + j = i + j' := by
  intro j
  induction j with
  | zero =>
    intro i _ _ _
    exact ⟨i, 0, rfl, le_refl _, rfl⟩
  | succ j ih =>
    intro i hji hi hj
    rw [boyer_moore.bmInner]
    obtain ⟨tc, htc⟩ : ∃ tc, text.get? i = some tc := ⟨_, List.get?_eq_get hi⟩
    obtain ⟨pc, hpc⟩ : ∃ pc, pattern.get? (j + 1) = some pc := ⟨_, List.get?_eq_get hj⟩
    simp only [htc, hpc]
    by_cases he : tc = pc
    · rw [if_pos he, if_neg (by omega : ¬ i = 0)]
      obtain ⟨i', j', hrec, hb1, hb2⟩ := ih (i - 1) (by omega) (by omega) (by omega)
      exact ⟨i', j', hrec, by omega, by omega⟩
    · rw [if_neg he]
      exact ⟨i, j + 1, rfl, le_refl _, rfl⟩

theorem bmInner_diag (p : List Char) :
    ∀ j, j < p.length → boyer_moore.bmInner p p j j = some (0, 0) := by
  intro j
  induction j with
  | zero => intro _; rfl
  | succ j ih =>
    intro hj
    rw [boyer_moore.bmInner]
    obtain ⟨c, hc⟩ : ∃ c, p.get? (j + 1) = some c := ⟨_, List.get?_eq_get hj⟩
    simp only [hc, if_true]
    rw [if_neg (by omega : ¬ j + 1 = 0)]
    simp only [Nat.add_sub_cancel]
    exact ih (by omega)

theorem bm_self (p : List Char) (h : p ≠ []) :
    boyer_moore.contains p p = some true := by
  have hpe : ¬ p.isEmpty = true := fun hh => h (List.isEmpty_iff.mp hh)
  have hg : ¬ (p.isEmpty = true ∨ p.length < p.length) := by
    rintro (hh | hh)
    · exact hpe hh
    · omega
  rw [boyer_moore.contains, if_neg hpe, if_neg hg]
  rw [boyer_moore.bmLoop]
  rw [if_pos (by have := List.length_pos.mpr h; omega : p.length - 1 < p.length)]
  rw [bmInner_diag p (p.length - 1) (by have := List.length_pos.mpr h; omega)]
  rfl

/- Boyer-Moore good-suffix table: every entry at index m is at least m + 1,
   which makes the text cursor advance by at least one per outer iteration. -/

theorem gstFold_bounds (p : List Char) (k : Nat) (h1 : 1 ≤ k) (h2 : k < p.length) :
    k + 1 ≤ (boyer_moore.gstFold p k).1
      ∧ ((boyer_moore.gstFold p k).2 = false → (boyer_moore.gstFold p k).1 = p.length) := by
  rw [boyer_moore.gstFold]
  exact List.foldlRecOn
    (motive := fun acc : Nat × Bool =>
      k + 1 ≤ acc.1 ∧ (acc.2 = false → acc.1 = p.length))
    _ _ _ ⟨by omega, fun _ => rfl⟩
    (by
      intro acc hacc pos hpos
      by_cases hq : boyer_moore.qualAt p k pos
      · rw [if_pos hq]
        refine ⟨?_, ?_⟩
        · rw [List.mem_range, List.length_take] at hpos
          omega
        · intro hf
          exact absurd hf (by simp)
      · rw [if_neg hq]
        exact hacc)

theorem gstEntry_ge (p : List Char) (k : Nat) (h1 : 1 ≤ k) (h2 : k < p.length) :
    k + 1 ≤ boyer_moore.gstEntry p k := by
  obtain ⟨hb1, hb2⟩ := gstFold_bounds p k h1 h2
  rw [boyer_moore.gstEntry]
  by_cases hf : (boyer_moore.gstFold p k).2
  · rw [if_pos hf]
    exact hb1
  · rw [if_neg hf]
    cases hfind : (List.range' 1 (k - 1)).reverse.find?
        (fun par => p.take par == p.drop (p.length - par)) with
    | some par =>
      have hmem : par ∈ List.range' 1 (k - 1) :=
        List.mem_reverse.mp (List.mem_of_find?_eq_some hfind)
      rw [List.mem_range'_1] at hmem
      show k + 1 ≤ p.length - par + k
      omega
    | none =>
      show k + 1 ≤ (boyer_moore.gstFold p k).1
      rw [hb2 (by simpa using hf)]
      omega

theorem gst_get (p : List Char) (m : Nat) (hne : p ≠ []) (h2 : m < p.length) :
    ∃ v, (boyer_moore.good_suffix_table p).get? m = some v ∧ m + 1 ≤ v := by
  cases m with
  | zero => exact ⟨1, rfl, le_refl _⟩
  | succ m' =>
    refine ⟨boyer_moore.gstEntry p (m' + 1), ?_, gstEntry_ge p (m' + 1) (by omega) h2⟩
    rw [boyer_moore.good_suffix_table]
    rw [List.get?_cons_succ, List.get?_map,
      List.get?_range' 1 1 (by omega : m' < p.length - 1)]
    simp [Nat.add_comm]

theorem bmLoop_total (p t : List Char) (hne : p ≠ []) (bct : Char → Option Nat) :
    ∀ (fuel i : Nat), p.length - 1 ≤ i → t.length - i < fuel →
      (boyer_moore.bmLoop p t bct (boyer_moore.good_suffix_table p) fuel i).isSome := by
  intro fuel
  induction fuel with
  | zero =>
    intro i h1 h2
    exact absurd h2 (by omega)
  | succ fuel ih =>
    intro i h1 h2
    rw [boyer_moore.bmLoop]
    by_cases hit : i < t.length
    · rw [if_pos hit]
      have hp : 0 < p.length := List.length_pos.mpr hne
      obtain ⟨i', j', hrec, hj'le, hsum⟩ :=
        bmInner_spec p t (p.length - 1) i (by omega) hit (by omega)
      simp only [hrec]
      by_cases hj0 : j' = 0
      · rw [if_pos hj0]
        rfl
      · rw [if_neg hj0]
        obtain ⟨tc, htc⟩ : ∃ tc, t.get? i' = some tc :=
          ⟨_, List.get?_eq_get (by omega)⟩
        obtain ⟨gs, hgs, hgsge⟩ := gst_get p (p.length - j' - 1) hne (by omega)
        simp only [htc, hgs]
        apply ih
        · omega
        · omega
    · rw [if_neg hit]
      rfl

theorem bm_contains_isSome (p t : List Char) :
    (boyer_moore.contains p t).isSome := by
  rw [boyer_moore.contains]
  by_cases hpe : p.isEmpty = true
  · rw [if_pos hpe]
    rfl
  · rw [if_neg hpe]
    by_cases hgd : t.isEmpty = true ∨ t.length < p.length
    · rw [if_pos hgd]
      rfl
    · rw [if_neg hgd]
      have hne : p ≠ [] := fun hh => hpe (List.isEmpty_iff.mpr hh)
      exact bmLoop_total p t hne _ (t.length + 1) (p.length - 1) (le_refl _)
        (by omega)

theorem naive_contains_isSome (p t : List Char) :
    (naive.contains p t).isSome := by
  rw [naive.contains]
  by_cases hpe : p.isEmpty = true
  · rw [if_pos hpe]
    rfl
  · rw [if_neg hpe]
    by_cases hgd : t.isEmpty = true ∨ t.length < p.length
    · rw [if_pos hgd]
      rfl
    · rw [if_neg hgd]
      rfl

theorem rkLoop_total (p t : List Char) (ph : Nat) (hne : p ≠ []) :
    ∀ (idxs : List Nat) (h : rabin_karp.RollingHasher),
      (∀ i ∈ idxs, i < t.length) →
      (rabin_karp.rkLoop p t ph h idxs).isSome := by
  intro idxs
  induction idxs with
  | nil =>
    intro h _
    rfl
  | cons i rest ih =>
    intro h hmem
    have hrest : ∀ x ∈ rest, x < t.length :=
      fun x hx => hmem x (List.mem_cons_of_mem _ hx)
    have hi : i < t.length := hmem i (List.mem_cons_self _ _)
    have hp : 0 < p.length := List.length_pos.mpr hne
    have key : ∀ (h' : rabin_karp.RollingHasher),
        (if h'.hash = ph then
            if rabin_karp.contains_inner p (t.drop i) = true then some true
            else rabin_karp.rkLoop p t ph h' rest
          else rabin_karp.rkLoop p t ph h' rest).isSome = true := by
      intro h'
      by_cases hh : h'.hash = ph
      · rw [if_pos hh]
        by_cases hci : rabin_karp.contains_inner p (t.drop i) = true
        · rw [if_pos hci]
          rfl
        · rw [if_neg hci]
          exact ih _ hrest
      · rw [if_neg hh]
        exact ih _ hrest
    rw [rabin_karp.rkLoop]
    by_cases hw : t.length - i < p.length
    · rw [if_pos hw]
      exact ih h hrest
    · rw [if_neg hw]
      by_cases h0 : 0 < i
      · rw [if_pos h0]
        obtain ⟨a, ha⟩ : ∃ a, t.get? (i + p.length - 1) = some a :=
          ⟨_, List.get?_eq_get (by omega)⟩
        obtain ⟨b, hb⟩ : ∃ b, t.get? (i - 1) = some b :=
          ⟨_, List.get?_eq_get (by omega)⟩
        simp only [ha, hb]
        exact key (h.roll a b)
      · rw [if_neg h0]
        exact key h

theorem rk_contains_isSome (p t : List Char) :
    (rabin_karp.contains p t).isSome := by
  rw [rabin_karp.contains]
  by_cases hpe : p.isEmpty = true
  · rw [if_pos hpe]
    rfl
  · rw [if_neg hpe]
    by_cases hgd : t.isEmpty = true ∨ t.length < p.length
    · rw [if_pos hgd]
      rfl
    · rw [if_neg hgd]
      have hne : p ≠ [] := fun hh => hpe (List.isEmpty_iff.mpr hh)
      exact rkLoop_total p t _ hne (List.range t.length) _
        (fun i hx => List.mem_range.mp hx)

/-- C7: for every non-empty pattern p and each of the four algorithms,
contains(p, p) returns true. -/
theorem self_match (p : List Char) (h : p ≠ []) :
    naive.contains p p = some true
      ∧ rabin_karp.contains p p = some true
      ∧ boyer_moore.contains p p = some true
      ∧ knuth_morris_pratt.contains p p = some true :=
  ⟨naive_self p h, rk_self p h, bm_self p h, kmp_self p h⟩

theorem self_match_witness :
    naive.contains ['a'] ['a'] = some true
      ∧ rabin_karp.contains ['a'] ['a'] = some true
      ∧ boyer_moore.contains ['a'] ['a'] = some true
      ∧ knuth_morris_pratt.contains ['a'] ['a'] = some true :=
  self_match ['a'] (by decide)

/-- C8 (amended): with the u64 arithmetic wrapping modulo 2^64 (as in a
release build), none of the four contains functions panics: every slice
index, subtraction, cast and table lookup they perform is in bounds and every
loop terminates, so each call produces a boolean.  (The u64 power and sum
computations in RollingHasher::new are not within u64 bounds for patterns of
every length — see the counterexample — so the wrapping proviso is needed.) -/
theorem contains_total (p t : List Char) :
    (naive.contains p t).isSome
      ∧ (rabin_karp.contains p t).isSome
      ∧ (boyer_moore.contains p t).isSome
      ∧ (knuth_morris_pratt.contains p t).isSome :=
  ⟨naive_contains_isSome p t, rk_contains_isSome p t,
   bm_contains_isSome p t, kmp_contains_isSome p t⟩

/-- C10: for every non-empty pattern, the KMP partial-match table is built
without fault; it has one entry per pattern position, entry 0 is -1, and
every entry is at least -1 and strictly less than its index; consequently
every mismatch step of the scan either advances the text cursor (entry -1)
or strictly decreases the pattern cursor (entry < index), and the scan
terminates on every text, producing a result. -/
theorem kmp_table_invariant (p : List Char) (h : p ≠ []) :
    ∃ tbl, knuth_morris_pratt.partial_match_table p = some tbl
      ∧ tbl.length = p.length
      ∧ tbl.get? 0 = some (-1)
      ∧ (∀ m v, tbl.get? m = some v → -1 ≤ v ∧ v < (m : Int))
      ∧ ∀ t, (knuth_morris_pratt.contains p t).isSome := by
  obtain ⟨tbl, h1, h2, h3⟩ := partial_match_table_spec p h
  refine ⟨tbl, h1, h2, ?_, h3, fun t => kmp_contains_isSome p t⟩
  obtain ⟨v, hv⟩ : ∃ v, tbl.get? 0 = some v :=
    ⟨_, List.get?_eq_get (by have := List.length_pos.mpr h; omega)⟩
  have hb := h3 0 v hv
  have : v = -1 := by
    have h1 := hb.1
    have h2 := hb.2
    omega
  rw [hv, this]

theorem kmp_table_invariant_witness :
    ∃ tbl, knuth_morris_pratt.partial_match_table ['a'] = some tbl
      ∧ tbl.length = (['a'] : List Char).length
      ∧ tbl.get? 0 = some (-1)
      ∧ (∀ m v, tbl.get? m = some v → -1 ≤ v ∧ v < (m : Int))
      ∧ ∀ t, (knuth_morris_pratt.contains ['a'] t).isSome :=
  kmp_table_invariant ['a'] (by decide)

/-- C6 (amended): in the Boyer-Moore good-suffix table, for every matched
suffix length k in 1..pattern.len()-1, if no qualifying repetition of the
full suffix exists in the pattern and no proper prefix of the pattern equals
a suffix of the matched suffix, then the table entry for k equals the
pattern length (the value pushed as the default), not the pattern length
plus k. -/
theorem good_suffix_default_entry (p : List Char) (k : Nat)
    (hk1 : 1 ≤ k) (hk2 : k < p.length)
    (h1 : boyer_moore.noQualFull p k = true)
    (h2 : boyer_moore.noBorder p k = true) :
    (boyer_moore.good_suffix_table p).get? k = some p.length := by
  have hfold : boyer_moore.gstFold p k = (p.length, false) := by
    rw [boyer_moore.noQualFull, List.all_eq_true] at h1
    rw [boyer_moore.gstFold]
    exact List.foldlRecOn (motive := fun acc : Nat × Bool => acc = (p.length, false))
      _ _ _ rfl
      (by
        intro acc hacc pos hpos
        have hq := h1 pos hpos
        rw [Bool.not_eq_true'] at hq
        rw [if_neg (by rw [hq]; exact Bool.false_ne_true)]
        exact hacc)
  have hent : boyer_moore.gstEntry p k = p.length := by
    rw [boyer_moore.gstEntry, hfold]
    rw [if_neg (by simp)]
    rw [List.find?_eq_none.mpr ?_]
    · intro par hpar
      rw [List.mem_reverse] at hpar
      have hb := (List.all_eq_true.mp h2) par hpar
      rw [Bool.not_eq_true'] at hb
      rw [hb]
      exact Bool.false_ne_true
  obtain ⟨k', rfl⟩ : ∃ k', k = k' + 1 := ⟨k - 1, by omega⟩
  rw [boyer_moore.good_suffix_table, List.get?_cons_succ, List.get?_map,
    List.get?_range' 1 1 (by omega : k' < p.length - 1)]
  simp only [Option.map_some', Nat.one_mul]
  rw [Nat.add_comm 1 k', hent]

/-- C6 (counterexample): for pattern "ab" and matched-suffix length 1 the
hypotheses of the claim hold (no qualifying full-suffix repetition, no
prefix/suffix border), yet the table entry is the pattern length 2, not the
claimed pattern length plus suffix length 3. -/
theorem good_suffix_default_claim_refuted :
    boyer_moore.noQualFull ['a', 'b'] 1 = true
      ∧ boyer_moore.noBorder ['a', 'b'] 1 = true
      ∧ (boyer_moore.good_suffix_table ['a', 'b']).get? 1 = some 2
      ∧ (2 : Nat) ≠ (['a', 'b'] : List Char).length + 1 := by
  decide

theorem good_suffix_default_entry_witness :
    boyer_moore.noQualFull ['c', 'd'] 1 = true
      ∧ boyer_moore.noBorder ['c', 'd'] 1 = true
      ∧ (boyer_moore.good_suffix_table ['c', 'd']).get? 1
          = some (['c', 'd'] : List Char).length :=
  ⟨by decide, by decide,
   good_suffix_default_entry ['c', 'd'] 1 (by decide) (by decide) (by decide)
     (by decide)⟩

/- Rolling hash: the wrapped fold is congruent (mod 2^64, hence mod 256) to
   the exact weighted sum, and the roll update preserves it. -/

theorem wrap_step (h a b m : Nat) :
    (h + a * (b % m) % m) % m ≡ h + a * b [MOD m] := by
  calc (h + a * (b % m) % m) % m
      ≡ h + a * (b % m) % m [MOD m] := Nat.mod_modEq _ _
    _ ≡ h + a * (b % m) [MOD m] := Nat.ModEq.add_left h (Nat.mod_modEq _ _)
    _ ≡ h + a * b [MOD m] :=
        Nat.ModEq.add_left h (Nat.ModEq.mul_left a (Nat.mod_modEq _ _))

theorem newLoop_modeq (window : Nat) :
    ∀ (l : List Char) (i h : Nat),
      rabin_karp.newLoop window i l h
        ≡ h + rabin_karp.sumTerms window i l [MOD U64] := by
  intro l
  induction l with
  | nil =>
    intro i h
    rw [rabin_karp.newLoop, rabin_karp.sumTerms, Nat.add_zero]
  | cons c cs ih =>
    intro i h
    rw [rabin_karp.newLoop, rabin_karp.sumTerms]
    have hstep := wrap_step h c.toNat
      (rabin_karp.MULTIPLIER ^ ((window - i - 1) % U32)) U64
    have hrec := (ih (i + 1)
      ((h + c.toNat * (rabin_karp.MULTIPLIER ^ ((window - i - 1) % U32) % U64) % U64) % U64)).trans
      (Nat.ModEq.add_right _ hstep)
    calc rabin_karp.newLoop window (i + 1) cs
          ((h + c.toNat * (rabin_karp.MULTIPLIER ^ ((window - i - 1) % U32) % U64) % U64) % U64)
        ≡ h + c.toNat * rabin_karp.MULTIPLIER ^ ((window - i - 1) % U32)
            + rabin_karp.sumTerms window (i + 1) cs [MOD U64] := hrec
      _ = h + (c.toNat * rabin_karp.MULTIPLIER ^ ((window - i - 1) % U32)
            + rabin_karp.sumTerms window (i + 1) cs) := by ring

theorem new_hash_modeq (init : List Char) :
    (rabin_karp.RollingHasher.new init).hash
      = rabin_karp.sumTerms init.length 0 init % rabin_karp.MODULO := by
  have hdvd : rabin_karp.MODULO ∣ U64 :=
    ⟨2 ^ 56, by norm_num [U64, rabin_karp.MODULO]⟩
  have h1 := newLoop_modeq init.length init 0 0
  rw [Nat.zero_add] at h1
  exact Nat.ModEq.of_dvd hdvd h1

theorem sumTerms_eq_polyVal (window : Nat) (hw : window ≤ U32) :
    ∀ (l : List Char) (i : Nat), i + l.length = window →
      rabin_karp.sumTerms window i l = rabin_karp.polyVal l := by
  intro l
  induction l with
  | nil =>
    intro i _
    rfl
  | cons c cs ih =>
    intro i hlen
    rw [List.length_cons] at hlen
    rw [rabin_karp.sumTerms, rabin_karp.polyVal]
    have he : (window - i - 1) % U32 = cs.length := by
      rw [show window - i - 1 = cs.length from by omega]
      exact Nat.mod_eq_of_lt (by omega)
    rw [he, ih (i + 1) (by omega)]

theorem polyVal_concat (l : List Char) (c : Char) :
    rabin_karp.polyVal (l ++ [c])
      = rabin_karp.polyVal l * rabin_karp.MULTIPLIER + c.toNat := by
  induction l with
  | nil => simp [rabin_karp.polyVal]
  | cons d ds ih =>
    rw [List.cons_append, rabin_karp.polyVal, rabin_karp.polyVal, ih]
    rw [List.length_append, List.length_singleton]
    ring

theorem roll_hash_formula (s : rabin_karp.RollingHasher) (a b : Char) :
    (s.roll a b).hash
      = ((s.hash + rabin_karp.MODULO
            - b.toNat * (rabin_karp.MULTIPLIER ^ ((s.window + U64 - 1) % U64 % U32) % U64)
                % U64 % rabin_karp.MODULO)
          % rabin_karp.MODULO * rabin_karp.MULTIPLIER % U64 + a.toNat)
        % U64 % rabin_karp.MODULO := rfl

theorem roll_arith (a b B C k u m : Nat) (hm : 0 < m) (hdvd : m ∣ u) :
    (((a * b + B) % m + m - a * (b % u) % u % m) % m * k % u + C) % u % m
      = (B * k + C) % m := by
  have hP : a * (b % u) % u % m ≡ a * b [MOD m] := by
    rw [Nat.mod_mod_of_dvd _ hdvd]
    calc a * (b % u) % m
        ≡ a * (b % u) [MOD m] := Nat.mod_modEq _ _
      _ ≡ a * b [MOD m] :=
          Nat.ModEq.mul_left a (Nat.ModEq.of_dvd hdvd (Nat.mod_modEq _ _))
  have hPlt : a * (b % u) % u % m < m := Nat.mod_lt _ hm
  have hX : (a * b + B) % m + m - a * (b % u) % u % m ≡ B [MOD m] := by
    apply Nat.ModEq.add_right_cancel' (a * (b % u) % u % m)
    rw [show ((a * b + B) % m + m - a * (b % u) % u % m) + a * (b % u) % u % m
        = (a * b + B) % m + m from by omega]
    calc (a * b + B) % m + m
        ≡ (a * b + B) % m [MOD m] := Nat.add_mod_right _ _
      _ ≡ a * b + B [MOD m] := Nat.mod_modEq _ _
      _ ≡ a * (b % u) % u % m + B [MOD m] := Nat.ModEq.add_right B hP.symm
      _ = B + a * (b % u) % u % m := Nat.add_comm _ _
  rw [Nat.mod_mod_of_dvd _ hdvd]
  calc ((a * b + B) % m + m - a * (b % u) % u % m) % m * k % u + C
      ≡ ((a * b + B) % m + m - a * (b % u) % u % m) % m * k + C [MOD m] :=
        Nat.ModEq.add_right C (Nat.ModEq.of_dvd hdvd (Nat.mod_modEq _ _))
    _ ≡ ((a * b + B) % m + m - a * (b % u) % u % m) * k + C [MOD m] :=
        Nat.ModEq.add_right C (Nat.ModEq.mul_right k (Nat.mod_modEq _ _))
    _ ≡ B * k + C [MOD m] := Nat.ModEq.add_right C (Nat.ModEq.mul_right k hX)

/-- C3 (amended): for every window w with 1 <= w.length <= 2^32 and every
incoming character c, constructing a RollingHasher over w and then rolling
with incoming c and outgoing w[0] yields the same hash as a RollingHasher
constructed directly over the shifted window w[1..] ++ [c].  (The length
bound is needed because the source truncates the exponent `power as u32`;
beyond 2^32 the truncation breaks the invariant - see the counterexample.) -/
theorem roll_matches_direct_hash (w : List Char) (c : Char)
    (hne : w ≠ []) (hle : w.length ≤ U32) :
    ((rabin_karp.RollingHasher.new w).roll c (w.headD default)).hash
      = (rabin_karp.RollingHasher.new (w.drop 1 ++ [c])).hash := by
  obtain ⟨w0, rest, rfl⟩ : ∃ w0 rest, w = w0 :: rest := by
    cases w with
    | nil => exact absurd rfl hne
    | cons a l => exact ⟨a, l, rfl⟩
  rw [List.length_cons] at hle
  have hdvd : rabin_karp.MODULO ∣ U64 :=
    ⟨2 ^ 56, by norm_num [U64, rabin_karp.MODULO]⟩
  have h3264 : U32 < U64 := by norm_num [U32, U64]
  have hwindow : (rabin_karp.RollingHasher.new (w0 :: rest)).window
      = rest.length + 1 := by
    simp [rabin_karp.RollingHasher.new]
  have hhash : (rabin_karp.RollingHasher.new (w0 :: rest)).hash
      = rabin_karp.polyVal (w0 :: rest) % rabin_karp.MODULO := by
    rw [new_hash_modeq,
      sumTerms_eq_polyVal (w0 :: rest).length (by simpa using hle) (w0 :: rest) 0
        (by simp)]
  rw [roll_hash_formula, hhash, hwindow]
  rw [show (w0 :: rest).headD default = w0 from rfl]
  have hpow : (rest.length + 1 + U64 - 1) % U64 % U32 = rest.length := by
    rw [show rest.length + 1 + U64 - 1 = rest.length + U64 from by omega,
      Nat.add_mod_right]
    rw [Nat.mod_eq_of_lt (by omega : rest.length < U64)]
    exact Nat.mod_eq_of_lt (by omega)
  rw [hpow]
  rw [show (w0 :: rest).drop 1 = rest from rfl]
  rw [new_hash_modeq,
    sumTerms_eq_polyVal (rest ++ [c]).length
      (by simp only [List.length_append, List.length_singleton]; omega)
      (rest ++ [c]) 0 (by simp)]
  rw [polyVal_concat]
  rw [show rabin_karp.polyVal (w0 :: rest)
      = w0.toNat * rabin_karp.MULTIPLIER ^ rest.length + rabin_karp.polyVal rest
    from rfl]
  exact roll_arith w0.toNat (rabin_karp.MULTIPLIER ^ rest.length)
    (rabin_karp.polyVal rest) c.toNat rabin_karp.MULTIPLIER U64 rabin_karp.MODULO
    (by norm_num [rabin_karp.MODULO]) hdvd

theorem roll_matches_direct_hash_witness :
    (['a', 'b'] : List Char) ≠ []
      ∧ (['a', 'b'] : List Char).length ≤ U32
      ∧ ((rabin_karp.RollingHasher.new ['a', 'b']).roll 'c'
            ((['a', 'b'] : List Char).headD default)).hash
          = (rabin_karp.RollingHasher.new ((['a', 'b'] : List Char).drop 1 ++ ['c'])).hash :=
  ⟨by decide, by decide,
   roll_matches_direct_hash ['a', 'b'] 'c' (by decide) (by decide)⟩

/- The hash of the window 'a' repeated 2^32 + 1 times, computed in closed
   form: with the u32-truncated exponents, position 0 contributes weight
   10^0 instead of 10^(2^32), so the hash is 97 * (1 + 11111111) mod 256. -/

theorem sumTerms_replicate (window : Nat) (a : Char) :
    ∀ (k i : Nat),
      rabin_karp.sumTerms window i (List.replicate k a)
        = ∑ j in Finset.range k,
            a.toNat * rabin_karp.MULTIPLIER ^ ((window - (i + j) - 1) % U32) := by
  intro k
  induction k with
  | zero =>
    intro i
    simp [rabin_karp.sumTerms]
  | succ k ih =>
    intro i
    rw [List.replicate_succ, rabin_karp.sumTerms, ih (i + 1), Finset.sum_range_succ']
    rw [show (∑ j in Finset.range k,
        a.toNat * rabin_karp.MULTIPLIER ^ ((window - (i + 1 + j) - 1) % U32))
      = ∑ j in Finset.range k,
        a.toNat * rabin_karp.MULTIPLIER ^ ((window - (i + (j + 1)) - 1) % U32) from
      Finset.sum_congr rfl (fun j _ => by
        rw [show window - (i + 1 + j) - 1 = window - (i + (j + 1)) - 1 from by omega])]
    rw [show i + 0 = i from rfl]
    exact Nat.add_comm _ _

theorem hash_sum_mod (n : Nat) (h8 : 8 ≤ n) :
    (∑ j in Finset.range (n + 1), 97 * 10 ^ (j % n)) % 256 = 200 := by
  rw [Finset.sum_range_succ, Nat.mod_self]
  rw [show (∑ j in Finset.range n, 97 * 10 ^ (j % n))
    = ∑ j in Finset.range n, 97 * 10 ^ j from
    Finset.sum_congr rfl (fun j hj => by
      rw [Nat.mod_eq_of_lt (Finset.mem_range.mp hj)])]
  rw [show (∑ j in Finset.range n, 97 * 10 ^ j)
    = (∑ j in Finset.Ico 0 8, 97 * 10 ^ j) + ∑ j in Finset.Ico 8 n, 97 * 10 ^ j from by
    rw [Finset.range_eq_Ico]
    exact (Finset.sum_Ico_consecutive _ (by norm_num) h8).symm]
  have hdvdtail : (256 : Nat) ∣ ∑ j in Finset.Ico 8 n, 97 * 10 ^ j := by
    apply Finset.dvd_sum
    intro j hj
    rw [Finset.mem_Ico] at hj
    rw [show (10 : Nat) ^ j = 10 ^ 8 * 10 ^ (j - 8) from by
      rw [← pow_add]
      congr 1
      omega]
    exact Dvd.dvd.mul_left
      (Dvd.dvd.mul_right (by norm_num : (256 : Nat) ∣ 10 ^ 8) _) 97
  have hsmall : (∑ j in Finset.Ico 0 8, 97 * 10 ^ j) = 1077777767 := by
    rw [← Finset.range_eq_Ico]
    decide
  rw [hsmall]
  have hmod : 1077777767 + (∑ j in Finset.Ico 8 n, 97 * 10 ^ j) + 97 * 10 ^ 0
      ≡ 1077777767 + 0 + 97 * 10 ^ 0 [MOD 256] :=
    Nat.ModEq.add_right (97 * 10 ^ 0)
      (Nat.ModEq.add_left 1077777767 (Nat.modEq_zero_iff_dvd.mpr hdvdtail))
  rw [hmod]
  norm_num

theorem new_hash_replicate :
    (rabin_karp.RollingHasher.new (List.replicate (U32 + 1) 'a')).hash = 200 := by
  rw [new_hash_modeq, List.length_replicate]
  rw [sumTerms_replicate (U32 + 1) 'a' (U32 + 1) 0]
  rw [show (∑ j in Finset.range (U32 + 1),
      'a'.toNat * rabin_karp.MULTIPLIER ^ ((U32 + 1 - (0 + j) - 1) % U32))
    = ∑ j in Finset.range (U32 + 1), 97 * 10 ^ ((U32 + 1 - 1 - j) % U32) from
    Finset.sum_congr rfl (fun j _ => by
      rw [show U32 + 1 - (0 + j) - 1 = U32 + 1 - 1 - j from by omega]
      rfl)]
  rw [Finset.sum_range_reflect (fun x => 97 * 10 ^ (x % U32)) (U32 + 1)]
  rw [show rabin_karp.MODULO = 256 from rfl]
  exact hash_sum_mod U32 (by norm_num [U32])

/-- C3 (counterexample): the claim fails for the window of 2^32 + 1 copies
of 'a' with incoming character 'a'.  The shifted window is the same window,
whose direct hash is 200, but the roll computes with the u32-truncated
exponent ((2^32+1) - 1) as u32 = 0, removing the outgoing character with
weight 10^0 instead of its construction-time weight, and yields 103. -/
theorem roll_cast_counterexample :
    ((rabin_karp.RollingHasher.new (List.replicate (U32 + 1) 'a')).roll 'a'
        ((List.replicate (U32 + 1) 'a').headD default)).hash
      ≠ (rabin_karp.RollingHasher.new
          ((List.replicate (U32 + 1) 'a').drop 1 ++ ['a'])).hash := by
  have hlist : (List.replicate (U32 + 1) 'a').drop 1 ++ ['a']
      = List.replicate (U32 + 1) 'a' := by
    rw [List.drop_replicate]
    rw [show U32 + 1 - 1 = U32 from rfl]
    exact (List.replicate_succ' U32 'a').symm
  rw [hlist]
  rw [show (List.replicate (U32 + 1) 'a').headD default = 'a' from by
    rw [List.replicate_succ]
    rfl]
  rw [roll_hash_formula]
  have hwin : (rabin_karp.RollingHasher.new (List.replicate (U32 + 1) 'a')).window
      = U32 + 1 := by
    simp [rabin_karp.RollingHasher.new]
  rw [new_hash_replicate, hwin]
  decide
